import Mathlib

/-!
Verification development for the card lookup/index engine of the
mtg-collection-analysis repository (src/mtg/scryfall.py).

The Python module is shallowly embedded: strings are Lean `String`s
manipulated through their character lists, Python dicts are association
lists preserving insertion order, the generator-based lookup pipeline is
made explicit, and the in-place `list.extend` on the list aliased from
`self._cards_map` is modelled by a fuel-indexed scan (the genuine code can
iterate a list while appending to it, which need not terminate).
-/

namespace MTG

/-! ## Character and string primitives (ASCII model of Python's str methods) -/

/-- ASCII per-character lowercasing: the fragment of Python's case
mapping on which the strings of this development agree with CPython;
non-ASCII characters are left fixed (CPython additionally lowercases
them, e.g. Æ to æ — those mappings are applied identically on both sides
of every equation below except the case-identity claim, which is
restricted accordingly). -/
def lowerChar (c : Char) : Char :=
  if 65 ≤ c.toNat ∧ c.toNat ≤ 90 then Char.ofNat (c.toNat + 32) else c

/-- ASCII per-character uppercasing; non-ASCII characters are left
fixed. -/
def upperChar (c : Char) : Char :=
  if 97 ≤ c.toNat ∧ c.toNat ≤ 122 then Char.ofNat (c.toNat - 32) else c

/-- Python `s.lower()`. -/
def pyLower (s : String) : String := ⟨s.data.map lowerChar⟩

/-- Python's per-character uppercase mapping as a character sequence:
ASCII letters shift, and the CPython special case of the sharp s is
kept — uppercasing ß yields the two-character string "SS", so
uppercasing can change a string's length (further non-ASCII mappings
behave analogously and are not needed by any statement below). -/
def upperCharSeq (c : Char) : List Char :=
  if c = 'ß' then ['S', 'S'] else [upperChar c]

/-- Python `s.upper()`. -/
def pyUpper (s : String) : String := ⟨(s.data.map upperCharSeq).flatten⟩

/-- Python `s.replace("*", "")`: remove every asterisk. -/
def stripStars (s : String) : String := ⟨s.data.filter (fun c => c ≠ '*')⟩

/-- Python `s.startswith(p)`. -/
def pyStartsWith (s p : String) : Bool := p.data.isPrefixOf s.data

/-- Python `s.endswith(p)`. -/
def pyEndsWith (s p : String) : Bool := p.data.isSuffixOf s.data

/-- Accumulating worker for whitespace splitting. -/
def splitWsAux : List Char → List Char → List (List Char)
  | [], acc => if acc.isEmpty then [] else [acc.reverse]
  | c :: cs, acc =>
    if c.isWhitespace then
      if acc.isEmpty then splitWsAux cs [] else acc.reverse :: splitWsAux cs []
    else splitWsAux cs (c :: acc)

/-- Python `s.split()` with no argument: split on whitespace runs and drop
empty pieces. -/
def pyWords (s : String) : List (List Char) := splitWsAux s.data []

/-- Does the character list contain the pattern as a contiguous
subsequence?  Models Python's `pat in s` substring test. -/
def containsSeq : List Char → List Char → Bool
  | [], pat => pat.isEmpty
  | c :: cs, pat => pat.isPrefixOf (c :: cs) || containsSeq cs pat

/-- Python `"//" in s`, the double-faced card separator test. -/
def hasDoubleSep (s : String) : Bool := containsSeq s.data ['/', '/']

/-! ## Data model (`Card`, raw catalogue entries, the index maps) -/

/-- The `Card` namedtuple of scryfall.py. -/
structure Card where
  name : String
  lang : String
  set_code : String
  set_name : String
  set_type : String
deriving DecidableEq, Repr

/-- One raw catalogue entry, with the fields `_load_cards_from_db` reads:
`name`, `lang`, `set`, `set_name`, `set_type`, `games`. -/
structure RawEntry where
  name : String
  lang : String
  set : String
  set_name : String
  set_type : String
  games : List String
deriving DecidableEq, Repr

/-- The `Card(...)` construction in `_load_cards_from_db`. -/
def toCard (e : RawEntry) : Card :=
  ⟨e.name, e.lang, e.set, e.set_name, e.set_type⟩

/-- `ScryfallDB.make_dbentry`: lowercase the name and replace every space
with a hyphen. -/
def make_dbentry (name : String) : String :=
  ⟨(name.data.map lowerChar).map (fun c => if c = ' ' then '-' else c)⟩

/-- The `defaultdict(list)` of cards, as an insertion-ordered association
list. -/
abbrev CardsMap := List (String × List Card)

/-- Python `dict.get k` (first binding wins; Python dicts have unique
keys). -/
def mapGet : CardsMap → String → Option (List Card)
  | [], _ => none
  | (k', v) :: rest, k => if k' = k then some v else mapGet rest k

/-- `self._cards_map[dbentry].append(c)` on a `defaultdict(list)`: append
to the existing list, or create a new singleton binding at the end. -/
def mapAppend : CardsMap → String → Card → CardsMap
  | [], k, c => [(k, [c])]
  | (k', v) :: rest, k, c =>
    if k' = k then (k', v ++ [c]) :: rest else (k', v) :: mapAppend rest k c

/-- The test in Python `entry["games"] and len(entry["games"]) == 1 and
entry["games"][0] == "mtgo"`. -/
def isOnlineOnly (gs : List String) : Bool :=
  !gs.isEmpty && gs.length == 1 && gs.headD "" == "mtgo"

/-- `ScryfallDB._load_cards_from_db`: keep English entries that are not
online-only, indexing them under their normalized name. -/
def load_cards_from_db : List RawEntry → CardsMap → CardsMap
  | [], m => m
  | e :: rest, m =>
    if e.lang ≠ "en" then load_cards_from_db rest m
    else if isOnlineOnly e.games then load_cards_from_db rest m
    else load_cards_from_db rest (mapAppend m (make_dbentry e.name) (toCard e))

/-- `ScryfallDB.all_cards`: every indexed card, in map insertion order. -/
def allCards (m : CardsMap) : List Card :=
  m.foldr (fun p acc => p.2 ++ acc) []

/-- The code-to-name dictionary, as an association list. -/
abbrev CodeMap := List (String × String)

/-- Membership of a key in the code-to-name dictionary
(`set_code in self._expansion_codename_map`). -/
def codeMapContains : CodeMap → String → Bool
  | [], _ => false
  | (k', _) :: rest, k => k' == k || codeMapContains rest k

/-- Python `d[k] = v` on the code-to-name dictionary. -/
def codeMapSet : CodeMap → String → String → CodeMap
  | [], k, v => [(k, v)]
  | (k', v') :: rest, k, v =>
    if k' = k then (k', v) :: rest else (k', v') :: codeMapSet rest k v

/-- `ScryfallDB._load_codename_map`: collect the (set_code, set_name)
pairs of all indexed cards (the Python version goes through a set whose
iteration order is unspecified; only the key set matters to lookup). -/
def load_codename_map (m : CardsMap) : CodeMap :=
  (allCards m).foldl (fun acc c => codeMapSet acc c.set_code c.set_name) []

/-- The mutable state of a `ScryfallDB` object after construction. -/
structure ScryfallDB where
  cards_map : CardsMap
  expansion_codename_map : CodeMap
deriving DecidableEq, Repr

/-- `ScryfallDB.__init__` applied to a preloaded raw database. -/
def mkScryfallDB (db : List RawEntry) : ScryfallDB :=
  let m := load_cards_from_db db []
  ⟨m, load_codename_map m⟩

/-- `ScryfallDB.add_expansion_code` (via the `expansion_codename_map`
property, which rebuilds the dictionary when it is empty). -/
def add_expansion_code (s : ScryfallDB) (set_code set_name : String) : ScryfallDB :=
  let cm := if s.expansion_codename_map.isEmpty
            then load_codename_map s.cards_map
            else s.expansion_codename_map
  ⟨s.cards_map, codeMapSet cm set_code set_name⟩

/-! ## The lookup pipeline -/

/-- `ScryfallDB._isin`: whole-word containment.  Python's
`reduce(and_, ...)` raises a `TypeError` when the query splits into no
words, modelled by the `.error` case. -/
def isin (card_name db_entry : String) : Except Unit Bool :=
  let db_entry_words := pyWords (pyLower db_entry)
  match pyWords (pyLower card_name) with
  | [] => .error ()
  | w :: ws => .ok ((w :: ws).all (fun n => db_entry_words.contains n))

/-- The filter function `f` chosen in `lookup` from the wildcard shape of
the original `card_name` argument. -/
def expandFilter (card_name : String) : Card → Except Unit Bool :=
  if pyStartsWith card_name "*" && pyEndsWith card_name "*" then
    let t := pyLower ⟨(card_name.data.drop 1).dropLast⟩
    fun c => .ok (pyStartsWith (pyLower c.name) t || pyEndsWith (pyLower c.name) t)
  else if pyStartsWith card_name "*" then
    let t := pyLower ⟨card_name.data.drop 1⟩
    fun c => .ok (pyEndsWith (pyLower c.name) t)
  else if pyEndsWith card_name "*" then
    let t := pyLower ⟨card_name.data.dropLast⟩
    fun c => .ok (pyStartsWith (pyLower c.name) t)
  else
    fun c => isin card_name c.name

/-- The composed pool predicate seen by `entries.extend`: the
`doubles_only` restriction is applied before `f`, so `f` is never
evaluated on a non-double card when `doubles_only` holds. -/
def passFn (doubles_only : Bool) (f : Card → Except Unit Bool) (c : Card) :
    Except Unit Bool :=
  if doubles_only && !hasDoubleSep c.name then .ok false else f c

/-- Boolean reading of the pool predicate (true exactly on the cards the
expansion keeps, when no exception occurs). -/
def passB (p : Card → Except Unit Bool) (c : Card) : Bool :=
  match p c with
  | .ok true => true
  | _ => false

/-- Scan a list that is not being mutated, collecting the elements the
predicate accepts, propagating the first exception. -/
def scanStatic (p : Card → Except Unit Bool) : List Card → Except Unit (List Card)
  | [] => .ok []
  | c :: cs =>
    match p c with
    | .error e => .error e
    | .ok b =>
      match scanStatic p cs with
      | .error e => .error e
      | .ok ms => .ok (if b then c :: ms else ms)

/-- Scan the aliased list while `entries.extend` keeps appending the
accepted elements to that same list: CPython's list iterator re-checks the
live length, so accepted elements are themselves visited later.  The scan
need not terminate, hence the fuel; `none` means the fuel ran out. -/
def scanLive (p : Card → Except Unit Bool) : Nat → List Card → Nat →
    Option (Except Unit (List Card))
  | 0, _, _ => none
  | fuel + 1, l, i =>
    if h : i < l.length then
      match p (l.get ⟨i, h⟩) with
      | .error e => some (.error e)
      | .ok true => scanLive p fuel (l ++ [l.get ⟨i, h⟩]) (i + 1)
      | .ok false => scanLive p fuel l (i + 1)
    else some (.ok l)

/-- Split the cards map at the first binding of a key. -/
def splitAtKey : CardsMap → String →
    Option (CardsMap × List Card × CardsMap)
  | [], _ => none
  | (k', v) :: rest, k =>
    if k' = k then some ([], v, rest)
    else (splitAtKey rest k).map (fun bva => ((k', v) :: bva.1, bva.2.1, bva.2.2))

/-- `entries.extend(filter(f, pool))` when `entries` aliases the list
stored in the map at the looked-up key: the `all_cards` generator walks
the earlier bindings (static), then the aliased list itself (live, being
appended to), then the later bindings (static). -/
def extendAliased (p : Card → Except Unit Bool) (fuel : Nat)
    (before : CardsMap) (L0 : List Card) (after : CardsMap) :
    Option (Except Unit (List Card)) :=
  match scanStatic p (allCards before) with
  | .error e => some (.error e)
  | .ok a0 =>
    match scanLive p fuel (L0 ++ a0) 0 with
    | none => none
    | some (.error e) => some (.error e)
    | some (.ok l2) =>
      match scanStatic p (allCards after) with
      | .error e => some (.error e)
      | .ok a2 => some (.ok (l2 ++ a2))

/-- Result of the name-resolution phase of `lookup`. -/
inductive NameRes where
  | raise
  | earlyEmpty
  | entries (es : List Card) (m' : CardsMap)
deriving DecidableEq, Repr

/-- The `is_card` criterion: a name was given and is non-empty once all
asterisks are removed. -/
def isCardCrit : Option String → Bool
  | some n => (stripStars n).length != 0
  | none => false

/-- Name resolution (lines 157-188 of scryfall.py): exact entries from the
map, the early empty return, and the expanded search with its in-place
`extend` of the aliased list. -/
def nameResolve (m : CardsMap) (card_name : Option String)
    (is_card expand_search doubles_only : Bool) (fuel : Nat) :
    Option NameRes :=
  if is_card then
    match card_name with
    | none => some .earlyEmpty
    | some n =>
      let key := make_dbentry n
      let exact := (mapGet m key).getD []
      if exact.isEmpty && !expand_search then some .earlyEmpty
      else if expand_search then
        let p := passFn doubles_only (expandFilter n)
        match splitAtKey m key with
        | some bva =>
          match extendAliased p fuel bva.1 bva.2.1 bva.2.2 with
          | none => none
          | some (.error _) => some .raise
          | some (.ok lfin) =>
            some (.entries lfin (bva.1 ++ (key, lfin) :: bva.2.2))
        | none =>
          match scanStatic p (allCards m) with
          | .error _ => some .raise
          | .ok ms => some (.entries ms m)
      else some (.entries exact m)
  else some (.entries (allCards m) m)

/-- The tuple of allowed set types from `lookup`. -/
def allowedSetTypes : List String :=
  ["promo", "expansion", "memorabilia", "premium_deck", "funny"]

/-- The set-code filter function: exact equality when the code is a known
key of the code-to-name map, otherwise a case-sensitive prefix match. -/
def setCodePred (cm : CodeMap) (set_code : String) (c : Card) : Bool :=
  if codeMapContains cm set_code then c.set_code == set_code
  else pyStartsWith c.set_code set_code

/-- The set-type filter stage. -/
def setTypeStage (set_type : Option String) (es : List Card) : List Card :=
  match set_type with
  | some t => es.filter (fun c => c.set_type == t)
  | none => es

/-- Python `dict.setdefault(k, v)` restricted to its effect on the
dictionary: keep an existing binding, otherwise append at the end. -/
def setdefaultCard (m : List (String × Card)) (k : String) (v : Card) :
    List (String × Card) :=
  if m.any (fun p => p.1 == k) then m else m ++ [(k, v)]

/-- The `unique` stage of `lookup`: fill a dict with `setdefault` keyed by
name and return its values in insertion order. -/
def uniqueStage (entries : List Card) : List Card :=
  (entries.foldl (fun m e => setdefaultCard m e.name e) []).map Prod.snd

/-- The set-type and uniqueness stages, as applied after the set-code
filter. -/
def finalStages (set_type : Option String) (unique : Bool)
    (es : List Card) : List Card :=
  let es2 := setTypeStage set_type es
  if unique then uniqueStage es2 else es2

/-- Lines 190-208 of scryfall.py: the set-code filter with its
empty-result short circuit, then the set-type filter, then the
uniqueness pass. -/
def postFilter (cm : CodeMap) (set_code set_type : Option String)
    (unique : Bool) (es : List Card) : List Card :=
  match set_code with
  | some sc =>
    let entries_set := es.filter (setCodePred cm sc)
    if entries_set.isEmpty then [] else finalStages set_type unique entries_set
  | none => finalStages set_type unique es

/-- What a `lookup` call hands back when it returns: either the
`ValueError` object built for an unrecognized set type (carrying the
offending value and the enumerated allowed values), or a sequence of
cards. -/
inductive LookupResult where
  | invalidSetType (given : String) (allowed : List String)
  | cards (cs : List Card)
deriving DecidableEq, Repr

/-- Observable outcome of one `lookup` call: a returned value together
with the state the object is left in, or a raised `TypeError`. -/
inductive Outcome where
  | ok (r : LookupResult) (s : ScryfallDB)
  | typeError
deriving DecidableEq, Repr

/-- Truthiness test of the Python guard
`if set_type and not set_type in allowed_set_types`. -/
def setTypeInvalid (set_type : Option String) : Bool :=
  match set_type with
  | some t => t != "" && !(allowedSetTypes.contains t)
  | none => false

/-- `ScryfallDB.lookup`.  The fuel bounds the live scan of the aliased
list during an expanded search; `none` means the bound was hit (the
Python original would still be looping). -/
def lookupFuel (s : ScryfallDB) (card_name : Option String)
    (expand_search doubles_only unique : Bool)
    (set_code set_type : Option String) (fuel : Nat) : Option Outcome :=
  if setTypeInvalid set_type then
    some (.ok (.invalidSetType (set_type.getD "") allowedSetTypes) s)
  else
    let is_card := isCardCrit card_name
    let is_set := set_code.isSome
    let is_set_type := set_type.isSome
    if !(is_card || is_set || is_set_type) then some (.ok (.cards []) s)
    else
      match nameResolve s.cards_map card_name is_card expand_search doubles_only fuel with
      | none => none
      | some .raise => some .typeError
      | some .earlyEmpty => some (.ok (.cards []) s)
      | some (.entries entries m') =>
        let s1 : ScryfallDB := ⟨m', s.expansion_codename_map⟩
        some (.ok (.cards (postFilter s.expansion_codename_map set_code set_type unique entries)) s1)

/-! ## Definitions written from the specification's wording

The two definitions below are deliberately written from the words of the
spec sentences under scrutiny, to be compared with the code-derived
pipeline above. -/

/-- The expansion matcher exactly as the specification words it: a query
of shape `*term*` matches names that case-insensitively start with or end
with the term, `*term` is an ends-with match, `term*` a starts-with
match, and a plain term is a whole-word match in which every whitespace
token of the term must occur among the candidate name's whitespace
tokens. -/
def claimShape (q : String) (c : Card) : Bool :=
  if pyStartsWith q "*" && pyEndsWith q "*" then
    pyStartsWith (pyLower c.name) (pyLower ⟨(q.data.drop 1).dropLast⟩)
      || pyEndsWith (pyLower c.name) (pyLower ⟨(q.data.drop 1).dropLast⟩)
  else if pyStartsWith q "*" then
    pyEndsWith (pyLower c.name) (pyLower ⟨q.data.drop 1⟩)
  else if pyEndsWith q "*" then
    pyStartsWith (pyLower c.name) (pyLower ⟨q.data.dropLast⟩)
  else
    (pyWords (pyLower q)).all (fun w => (pyWords (pyLower c.name)).contains w)

/-- The uniqueness policy as the specification words it: walk the
candidates in order and keep only the first card encountered for each
distinct name, dropping every later card with an already-seen name. -/
def firstSeenByName (seen : List String) : List Card → List Card
  | [] => []
  | c :: cs =>
    if c.name ∈ seen then firstSeenByName seen cs
    else c :: firstSeenByName (c.name :: seen) cs

/-! ## Concrete fixtures used in the counterexamples and witnesses -/

/-- A card whose name contains a hyphen where a looked-up name has a
space, so the exact candidates do not whole-word-match the query. -/
def cardHyphen : Card := ⟨"Alpha-Beta", "en", "s1", "Set One", "expansion"⟩

/-- A card whose name whole-word-contains the query "Alpha Beta". -/
def cardThree : Card := ⟨"Alpha Beta Gamma", "en", "s2", "Set Two", "expansion"⟩

/-- A two-entry index in which an expanded search on "Alpha Beta" finds
an exact candidate list it aliases and a later match it appends to it. -/
def dbAlias : ScryfallDB :=
  ⟨[("alpha-beta", [cardHyphen]), ("alpha-beta-gamma", [cardThree])],
   [("s1", "Set One"), ("s2", "Set Two")]⟩

/-- A single-faced card. -/
def cardFire : Card := ⟨"Fire", "en", "s1", "Set One", "expansion"⟩

/-- A double-faced card. -/
def cardFireIce : Card := ⟨"Fire // Ice", "en", "s2", "Set Two", "expansion"⟩

/-- A one-card index. -/
def dbFire : ScryfallDB := ⟨[("fire", [cardFire])], [("s1", "Set One")]⟩

/-- An index holding a single-faced and a double-faced card. -/
def dbFireIce : ScryfallDB :=
  ⟨[("fire", [cardFire]), ("fire-//-ice", [cardFireIce])],
   [("s1", "Set One"), ("s2", "Set Two")]⟩

/-- A card whose name is the sharp s, a character Python uppercases to
the two-character string "SS". -/
def cardEszett : Card := ⟨"ß", "en", "s1", "Set One", "expansion"⟩

/-- An index containing only the sharp-s card (its index key is "ß",
since lowercasing fixes it and it contains no space). -/
def dbEszett : ScryfallDB := ⟨[("ß", [cardEszett])], [("s1", "Set One")]⟩

/-! ## Claim theorems -/

/-- C1: the claim that every lookup leaves the index unchanged is wrong on
the code.  With expand_search on a name that has exact matches, `entries`
aliases the list stored in `self._cards_map` and `entries.extend(...)`
mutates it in place: after the call below the record list stored under
"alpha-beta" has gained a card of a different name. -/
theorem lookup_mutates_index :
    lookupFuel dbAlias (some "Alpha Beta") true false false none none 10
      = some (.ok (.cards [cardHyphen, cardThree])
          ⟨[("alpha-beta", [cardHyphen, cardThree]), ("alpha-beta-gamma", [cardThree])],
           [("s1", "Set One"), ("s2", "Set Two")]⟩) ∧
    ([("alpha-beta", [cardHyphen, cardThree]), ("alpha-beta-gamma", [cardThree])] : CardsMap)
      ≠ dbAlias.cards_map := by
  decide

/-- C10: with a card name consisting of whitespace only (non-empty after
removing asterisks, hence a name criterion) and expand_search on a
non-empty index, the whole-word matcher reduces a conjunction over an
empty token list and raises a TypeError instead of returning a result or
an error value. -/
theorem lookup_whitespace_raises :
    (stripStars " ").length ≠ 0 ∧
    allCards dbFire.cards_map ≠ [] ∧
    lookupFuel dbFire (some " ") true false false none none 10 = some .typeError := by
  decide

/-- C2 counterexample: the empty string is a set_type outside the allowed
enumeration, yet lookup returns an empty card sequence rather than an
InvalidArgument error, because Python's truthiness test skips the
validation for a falsy set_type. -/
theorem set_type_empty_slips_validation :
    allowedSetTypes.contains "" = false ∧
    lookupFuel dbFire none false false false none (some "") 1
      = some (.ok (.cards []) dbFire) := by
  decide

/-- C3 counterexample: an English entry whose platform list is
["mtgo", "mtgo"] has platform set exactly `set mtgo` yet is retained by
the build, and an English entry named "*" is retained but lookup of its
name yields nothing — both contradicting the claim as stated. -/
theorem build_filter_cex :
    (mapGet (load_cards_from_db [⟨"Foo", "en", "x", "X", "promo", ["mtgo", "mtgo"]⟩] []) "foo")
      = some [⟨"Foo", "en", "x", "X", "promo"⟩] ∧
    lookupFuel (mkScryfallDB [⟨"*", "en", "x", "X", "promo", []⟩])
        (some "*") false false false none none 1
      = some (.ok (.cards []) (mkScryfallDB [⟨"*", "en", "x", "X", "promo", []⟩])) ∧
    toCard ⟨"*", "en", "x", "X", "promo", []⟩
      ∈ allCards (mkScryfallDB [⟨"*", "en", "x", "X", "promo", []⟩]).cards_map := by
  decide

/-- C9 counterexample: with expand_search and doubles_only, the exact-match
candidates are not restricted to double-faced names — looking up "Fire"
returns the single-faced card "Fire" even though its name contains no
"//" separator. -/
theorem doubles_only_keeps_exact_cex :
    lookupFuel dbFire (some "Fire") true true false none none 10
      = some (.ok (.cards [cardFire]) dbFire) ∧
    hasDoubleSep cardFire.name = false := by
  decide

/-- C8: if the name is missing or empty after removing asterisks and no
set code or set type is supplied, none of the three criteria holds and
lookup returns the empty sequence, leaving the state untouched. -/
theorem no_criteria_returns_empty (s : ScryfallDB) (name : Option String)
    (e d u : Bool) (fuel : Nat)
    (h : name = none ∨ ∃ n, name = some n ∧ (stripStars n).length = 0) :
    lookupFuel s name e d u none none fuel = some (.ok (.cards []) s) := by
  have hc : isCardCrit name = false := by
    rcases h with rfl | ⟨n, rfl, hn⟩
    · rfl
    · simp [isCardCrit, hn]
  simp [lookupFuel, setTypeInvalid, hc]

/-- Witness for C8 at the concrete input of the claim: a lone asterisk. -/
theorem no_criteria_returns_empty_witness :
    lookupFuel dbFire (some "*") false false false none none 1
      = some (.ok (.cards []) dbFire) :=
  no_criteria_returns_empty dbFire (some "*") false false false 1
    (Or.inr ⟨"*", rfl, by decide⟩)

/-- C2 as amended: a non-empty set_type outside the allowed enumeration is
answered by the returned InvalidArgument value that enumerates the allowed
set types, with the state untouched; for an allowed set_type, for no
set_type at all, and for the empty string (which Python's truthiness test
lets through), no such error value is ever produced. -/
theorem set_type_validation (s : ScryfallDB) (n : Option String) (e d u : Bool)
    (sc st : Option String) (fuel : Nat) :
    (∀ t, st = some t → t ≠ "" → allowedSetTypes.contains t = false →
      lookupFuel s n e d u sc st fuel
        = some (.ok (.invalidSetType t allowedSetTypes) s)) ∧
    ((st = none ∨ st = some "" ∨ ∃ t, st = some t ∧ allowedSetTypes.contains t = true) →
      ∀ g al s', lookupFuel s n e d u sc st fuel
        ≠ some (.ok (.invalidSetType g al) s')) := by
  constructor
  · rintro t rfl ht hmem
    have hmem' : t ∉ allowedSetTypes := by simpa using hmem
    simp [lookupFuel, setTypeInvalid, ht, hmem']
  · intro hst g al s' h
    have hv : setTypeInvalid st = false := by
      rcases hst with rfl | rfl | ⟨t, rfl, hmem⟩
      · rfl
      · simp [setTypeInvalid]
      · have ht : t ∈ allowedSetTypes := by simpa using hmem
        simp [setTypeInvalid, ht]
    simp only [lookupFuel, hv, Bool.false_eq_true, if_false] at h
    split at h
    · simp at h
    · split at h <;> simp at h

/-- Witness for C2: the amended theorem applied at a concrete bogus
set type and at a concrete allowed one. -/
theorem set_type_validation_witness :
    lookupFuel dbFire none false false false none (some "bogus") 1
      = some (.ok (.invalidSetType "bogus" allowedSetTypes) dbFire) ∧
    ∀ g al s', lookupFuel dbFire none false false false none (some "promo") 1
      ≠ some (.ok (.invalidSetType g al) s') :=
  ⟨(set_type_validation dbFire none false false false none (some "bogus") 1).1
      "bogus" rfl (by decide) (by decide),
   (set_type_validation dbFire none false false false none (some "promo") 1).2
      (Or.inr (Or.inr ⟨"promo", rfl, by decide⟩))⟩

/-! ## Lemmas about the uniqueness stage -/

/-- The first-seen walk only depends on the membership of the seen set. -/
theorem firstSeenByName_congr {s1 s2 : List String}
    (h : ∀ x, x ∈ s1 ↔ x ∈ s2) : ∀ cs, firstSeenByName s1 cs = firstSeenByName s2 cs
  | [] => rfl
  | c :: cs => by
    by_cases hc : c.name ∈ s1
    · rw [firstSeenByName, if_pos hc, firstSeenByName, if_pos ((h c.name).1 hc),
        firstSeenByName_congr h cs]
    · rw [firstSeenByName, if_neg hc, firstSeenByName,
        if_neg (fun hx => hc ((h c.name).2 hx))]
      have h' : ∀ x, x ∈ c.name :: s1 ↔ x ∈ c.name :: s2 := by
        intro x; simp [h x]
      rw [firstSeenByName_congr h' cs]

/-- The values of the setdefault fold are the already-collected values
followed by the first-seen cards among the remaining candidates. -/
theorem foldl_setdefault_snd (cs : List Card) (acc : List (String × Card)) :
    (cs.foldl (fun m e => setdefaultCard m e.name e) acc).map Prod.snd
      = acc.map Prod.snd ++ firstSeenByName (acc.map Prod.fst) cs := by
  induction cs generalizing acc with
  | nil => simp [firstSeenByName]
  | cons c cs ih =>
    rw [List.foldl_cons]
    by_cases hk : c.name ∈ acc.map Prod.fst
    · have hany : (acc.any fun p => p.1 == c.name) = true := by
        simp only [List.any_eq_true, beq_iff_eq]
        obtain ⟨p, hp, he⟩ := List.mem_map.1 hk
        exact ⟨p, hp, he⟩
      rw [setdefaultCard, if_pos hany, ih, firstSeenByName, if_pos hk]
    · have hany : ¬ ((acc.any fun p => p.1 == c.name) = true) := by
        simp only [List.any_eq_true, beq_iff_eq]
        rintro ⟨p, hp, he⟩
        exact hk (List.mem_map.2 ⟨p, hp, he⟩)
      rw [setdefaultCard, if_neg hany, ih, firstSeenByName, if_neg hk]
      have hseen : ∀ x, x ∈ (acc ++ [(c.name, c)]).map Prod.fst ↔ x ∈ c.name :: acc.map Prod.fst := by
        intro x; simp [or_comm]
      rw [firstSeenByName_congr hseen cs]
      simp

/-- The unique stage is exactly the first-seen-by-name walk. -/
theorem uniqueStage_eq_firstSeen (cs : List Card) :
    uniqueStage cs = firstSeenByName [] cs := by
  simpa [uniqueStage] using foldl_setdefault_snd cs []

/-- The first-seen walk returns a subsequence of its input. -/
theorem firstSeen_sublist : ∀ (cs : List Card) (seen : List String),
    List.Sublist (firstSeenByName seen cs) cs
  | [], _ => List.Sublist.refl []
  | c :: cs, seen => by
    by_cases hc : c.name ∈ seen
    · rw [firstSeenByName, if_pos hc]
      exact (firstSeen_sublist cs seen).cons c
    · rw [firstSeenByName, if_neg hc]
      exact (firstSeen_sublist cs (c.name :: seen)).cons₂ c

/-- The first-seen walk avoids the seen names and never repeats a name. -/
theorem firstSeen_nodup : ∀ (cs : List Card) (seen : List String),
    (∀ x ∈ (firstSeenByName seen cs).map Card.name, x ∉ seen) ∧
    ((firstSeenByName seen cs).map Card.name).Nodup
  | [], _ => by simp [firstSeenByName]
  | c :: cs, seen => by
    by_cases hc : c.name ∈ seen
    · rw [firstSeenByName, if_pos hc]
      exact firstSeen_nodup cs seen
    · rw [firstSeenByName, if_neg hc]
      obtain ⟨havoid, hnodup⟩ := firstSeen_nodup cs (c.name :: seen)
      refine ⟨?_, ?_⟩
      · intro x hx
        rw [List.map_cons] at hx
        rcases List.mem_cons.1 hx with rfl | hx'
        · exact hc
        · intro hxs
          exact havoid x hx' (List.mem_cons_of_mem _ hxs)
      · refine List.nodup_cons.2 ⟨?_, hnodup⟩
        intro hmem
        exact havoid c.name hmem (List.mem_cons_self _ _)

/-- C6: the unique stage keeps, in candidate order, exactly the first card
encountered for each distinct name (the specification's first-seen walk),
it returns a subsequence of the candidates, the resulting names are
pairwise distinct, and with unique switched on the final stages of lookup
are exactly this walk applied after the set-type filter. -/
theorem unique_stage_first_seen (cs : List Card) (st : Option String) :
    uniqueStage cs = firstSeenByName [] cs ∧
    List.Sublist (uniqueStage cs) cs ∧
    ((uniqueStage cs).map Card.name).Nodup ∧
    finalStages st true cs = firstSeenByName [] (setTypeStage st cs) := by
  refine ⟨uniqueStage_eq_firstSeen cs, ?_, ?_, ?_⟩
  · rw [uniqueStage_eq_firstSeen]
    exact firstSeen_sublist cs []
  · rw [uniqueStage_eq_firstSeen]
    exact (firstSeen_nodup cs []).2
  · simp [finalStages, uniqueStage_eq_firstSeen]

/-! ## Lemmas about the ASCII case model -/

/-- Valid code points survive the round trip through `Char.ofNat`. -/
theorem char_toNat_ofNat_valid {n : Nat} (h : n.isValidChar) :
    (Char.ofNat n).toNat = n := by
  rw [Char.ofNat, dif_pos h]
  simp [Char.ofNatAux, Char.toNat, UInt32.toNat, BitVec.toNat_ofNatLt]

/-- Lowercasing after uppercasing is plain lowercasing. -/
theorem lowerChar_upperChar (c : Char) : lowerChar (upperChar c) = lowerChar c := by
  unfold upperChar lowerChar
  by_cases h : 97 ≤ c.toNat ∧ c.toNat ≤ 122
  · simp only [if_pos h]
    have hv : (c.toNat - 32).isValidChar := Or.inl (by omega)
    simp only [char_toNat_ofNat_valid hv]
    rw [if_pos (by omega : 65 ≤ c.toNat - 32 ∧ c.toNat - 32 ≤ 90),
      if_neg (by omega : ¬(65 ≤ c.toNat ∧ c.toNat ≤ 90))]
    have : c.toNat - 32 + 32 = c.toNat := by omega
    rw [this, Char.ofNat_toNat]
  · simp only [if_neg h]

/-- Lowercasing is idempotent. -/
theorem lowerChar_lowerChar (c : Char) : lowerChar (lowerChar c) = lowerChar c := by
  unfold lowerChar
  by_cases h : 65 ≤ c.toNat ∧ c.toNat ≤ 90
  · simp only [if_pos h]
    have hv : (c.toNat + 32).isValidChar := Or.inl (by omega)
    simp only [char_toNat_ofNat_valid hv]
    rw [if_neg (by omega : ¬(65 ≤ c.toNat + 32 ∧ c.toNat + 32 ≤ 90))]
  · simp only [if_neg h]

/-- Uppercasing maps no character onto the asterisk. -/
theorem upperChar_eq_star_iff (c : Char) : upperChar c = '*' ↔ c = '*' := by
  unfold upperChar
  by_cases h : 97 ≤ c.toNat ∧ c.toNat ≤ 122
  · rw [if_pos h]
    constructor
    · intro he
      have ht : (Char.ofNat (c.toNat - 32)).toNat = Char.toNat '*' := by rw [he]
      rw [char_toNat_ofNat_valid (Or.inl (by omega))] at ht
      have h42 : Char.toNat '*' = 42 := rfl
      omega
    · intro he
      rw [he] at h
      exact absurd h (by decide)
  · rw [if_neg h]

/-- Lowercasing maps no character onto the asterisk. -/
theorem lowerChar_eq_star_iff (c : Char) : lowerChar c = '*' ↔ c = '*' := by
  unfold lowerChar
  by_cases h : 65 ≤ c.toNat ∧ c.toNat ≤ 90
  · rw [if_pos h]
    constructor
    · intro he
      have ht : (Char.ofNat (c.toNat + 32)).toNat = Char.toNat '*' := by rw [he]
      rw [char_toNat_ofNat_valid (Or.inl (by omega))] at ht
      have h42 : Char.toNat '*' = 42 := rfl
      omega
    · intro he
      rw [he] at h
      exact absurd h (by decide)
  · rw [if_neg h]

/-- On an all-ASCII string, Python's uppercasing is the plain ASCII
character map (the sharp s, the sole sequence case kept in the model, is
not ASCII). -/
theorem pyUpper_ascii (X : String)
    (hX : X.data.all (fun c => c.toNat < 128) = true) :
    pyUpper X = ⟨X.data.map upperChar⟩ := by
  unfold pyUpper
  apply congrArg
  have key : ∀ l : List Char, l.all (fun c => c.toNat < 128) = true →
      (l.map upperCharSeq).flatten = l.map upperChar := by
    intro l hl
    induction l with
    | nil => rfl
    | cons c cs ih =>
      rw [List.all_cons, Bool.and_eq_true] at hl
      have hc : ¬ c = 'ß' := by
        intro he
        subst he
        simp at hl
      rw [List.map_cons, List.map_cons, List.flatten_cons, upperCharSeq,
        if_neg hc, ih hl.2]
      rfl
  exact key X.data hX

/-- The index key of an ASCII-uppercased name is the key of the name
itself. -/
theorem make_dbentry_map_upper (X : String) :
    make_dbentry ⟨X.data.map upperChar⟩ = make_dbentry X := by
  unfold make_dbentry
  apply congrArg
  simp only [List.map_map]
  apply List.map_congr_left
  intro c _
  simp [Function.comp, lowerChar_upperChar]

/-- The index key of a lowercased name is the key of the name itself. -/
theorem make_dbentry_pyLower (X : String) :
    make_dbentry (pyLower X) = make_dbentry X := by
  unfold make_dbentry pyLower
  apply congrArg
  simp only [List.map_map]
  apply List.map_congr_left
  intro c _
  simp [Function.comp, lowerChar_lowerChar]

/-- Removing asterisks commutes in length with any asterisk-preserving
character map. -/
theorem stripStars_length_map (f : Char → Char)
    (hf : ∀ c, f c = '*' ↔ c = '*') (s : String) :
    (stripStars ⟨s.data.map f⟩).length = (stripStars s).length := by
  have key : ∀ l : List Char,
      ((l.map f).filter (fun c => !decide (c = '*'))).length
        = (l.filter (fun c => !decide (c = '*'))).length := by
    intro l
    induction l with
    | nil => rfl
    | cons c cs ih =>
      by_cases hc : c = '*'
      · subst hc
        simp [List.filter_cons, (hf '*').2 rfl, ih]
      · have hfc : f c ≠ '*' := fun he => hc ((hf c).1 he)
        simp [List.filter_cons, hc, hfc, ih]
  show (List.filter (fun c => decide (c ≠ '*')) (s.data.map f)).length
      = (List.filter (fun c => decide (c ≠ '*')) s.data).length
  simp only [ne_eq, decide_not]
  exact key s.data

/-- The name criterion of an ASCII-uppercased name agrees with the
original. -/
theorem isCardCrit_map_upper (X : String) :
    isCardCrit (some (⟨X.data.map upperChar⟩ : String)) = isCardCrit (some X) := by
  show ((stripStars ⟨X.data.map upperChar⟩).length != 0)
      = ((stripStars X).length != 0)
  rw [stripStars_length_map upperChar upperChar_eq_star_iff X]

/-- The name criterion of a lowercased name agrees with the original. -/
theorem isCardCrit_pyLower (X : String) :
    isCardCrit (some (pyLower X)) = isCardCrit (some X) := by
  show ((stripStars ⟨X.data.map lowerChar⟩).length != 0)
      = ((stripStars X).length != 0)
  rw [stripStars_length_map lowerChar lowerChar_eq_star_iff X]

/-- A default-argument lookup only sees the name through its index key and
its name criterion. -/
theorem lookup_default_congr (s : ScryfallDB) (n1 n2 : String) (fuel : Nat)
    (hk : make_dbentry n1 = make_dbentry n2)
    (hl : isCardCrit (some n1) = isCardCrit (some n2)) :
    lookupFuel s (some n1) false false false none none fuel
      = lookupFuel s (some n2) false false false none none fuel := by
  cases hv : isCardCrit (some n2) with
  | false =>
    rw [hv] at hl
    simp [lookupFuel, setTypeInvalid, hl, hv]
  | true =>
    rw [hv] at hl
    simp [lookupFuel, setTypeInvalid, nameResolve, hl, hv, hk]

/-- C7 counterexample: the identity fails on a non-ASCII name.  Python
uppercases "ß" to "SS", whose index key "ss" differs from the key "ß", so
on an index naming the sharp-s card, looking up the name finds the card
while looking up its uppercased form finds nothing. -/
theorem lookup_case_insensitive_cex :
    pyUpper "ß" = "SS" ∧
    lookupFuel dbEszett (some "ß") false false false none none 1
      = some (.ok (.cards [cardEszett]) dbEszett) ∧
    lookupFuel dbEszett (some (pyUpper "ß")) false false false none none 1
      = some (.ok (.cards []) dbEszett) := by
  decide

/-- C7 as amended: with all other arguments at their defaults and for a
name consisting of ASCII characters, looking up the name, its uppercased
form, and its lowercased form produce identical outcomes, because the
index key — the lowercased, hyphenated name — is identical for all
three.  (For non-ASCII names the identity can fail, as the sharp s
shows.) -/
theorem lookup_case_insensitive_ascii (s : ScryfallDB) (X : String) (fuel : Nat)
    (hX : X.data.all (fun c => c.toNat < 128) = true) :
    lookupFuel s (some (pyUpper X)) false false false none none fuel
      = lookupFuel s (some X) false false false none none fuel ∧
    lookupFuel s (some (pyLower X)) false false false none none fuel
      = lookupFuel s (some X) false false false none none fuel ∧
    make_dbentry (pyUpper X) = make_dbentry X ∧
    make_dbentry (pyLower X) = make_dbentry X := by
  have hU : pyUpper X = ⟨X.data.map upperChar⟩ := pyUpper_ascii X hX
  refine ⟨?_, ?_, ?_, ?_⟩
  · rw [hU]
    exact lookup_default_congr s _ X fuel (make_dbentry_map_upper X)
      (isCardCrit_map_upper X)
  · exact lookup_default_congr s (pyLower X) X fuel (make_dbentry_pyLower X)
      (isCardCrit_pyLower X)
  · rw [hU]
    exact make_dbentry_map_upper X
  · exact make_dbentry_pyLower X

/-- Witness for C7 at a concrete mixed-case ASCII name. -/
theorem lookup_case_insensitive_ascii_witness :
    lookupFuel dbFire (some (pyUpper "FiRe")) false false false none none 1
      = lookupFuel dbFire (some "FiRe") false false false none none 1 ∧
    lookupFuel dbFire (some (pyLower "FiRe")) false false false none none 1
      = lookupFuel dbFire (some "FiRe") false false false none none 1 ∧
    make_dbentry (pyUpper "FiRe") = make_dbentry "FiRe" ∧
    make_dbentry (pyLower "FiRe") = make_dbentry "FiRe" :=
  lookup_case_insensitive_ascii dbFire "FiRe" 1 (by decide)

/-! ## Lemmas about the expanded search -/

/-- A successful static scan collects exactly the accepted elements. -/
theorem scanStatic_ok_filter {p : Card → Except Unit Bool} :
    ∀ {xs ms : List Card}, scanStatic p xs = .ok ms → ms = xs.filter (passB p)
  | [], ms, h => by
    rw [scanStatic] at h
    injection h with h
    simp [← h]
  | x :: xs, ms, h => by
    rw [scanStatic] at h
    cases hp : p x with
    | error err => rw [hp] at h; exact absurd h (by simp)
    | ok b =>
      rw [hp] at h
      cases hs : scanStatic p xs with
      | error err => rw [hs] at h; exact absurd h (by simp)
      | ok ms0 =>
        rw [hs] at h
        injection h with h
        have ht := scanStatic_ok_filter hs
        rw [List.filter_cons, ← h, ht]
        cases b <;> simp [passB, hp]

/-- A live scan can only finish if it accepts nothing at or after its
start index: every accepted element is appended behind the cursor and
would itself be accepted again, keeping the cursor forever short of the
end. -/
theorem scanLive_ok {p : Card → Except Unit Bool} :
    ∀ {fuel : Nat} {l l' : List Card} {i : Nat},
      scanLive p fuel l i = some (.ok l') →
      l' = l ∧ ∀ j (hj : j < l.length), i ≤ j → p (l.get ⟨j, hj⟩) = .ok false := by
  intro fuel
  induction fuel with
  | zero => intro l l' i h; exact absurd h (by simp [scanLive])
  | succ fuel ih =>
    intro l l' i h
    rw [scanLive] at h
    by_cases hi : i < l.length
    · rw [dif_pos hi] at h
      cases hp : p (l.get ⟨i, hi⟩) with
      | error err => rw [hp] at h; exact absurd h (by simp)
      | ok b =>
        rw [hp] at h
        cases b with
        | true =>
          obtain ⟨heq, hall⟩ := ih h
          have hlen : l.length < (l ++ [l.get ⟨i, hi⟩]).length := by simp
          have hx := hall l.length hlen (by omega)
          have hget : (l ++ [l.get ⟨i, hi⟩]).get ⟨l.length, hlen⟩ = l.get ⟨i, hi⟩ := by
            simp
          rw [hget] at hx
          rw [hx] at hp
          exact absurd hp (by simp)
        | false =>
          obtain ⟨heq, hall⟩ := ih h
          refine ⟨heq, ?_⟩
          intro j hj hij
          by_cases hji : j = i
          · subst hji
            exact hp
          · exact hall j hj (by omega)
    · rw [dif_neg hi] at h
      injection h with h
      injection h with h
      refine ⟨h.symm, ?_⟩
      intro j hj hij
      omega

/-- The cards of a concatenated map are the concatenated cards. -/
theorem allCards_append (x y : CardsMap) :
    allCards (x ++ y) = allCards x ++ allCards y := by
  induction x with
  | nil => rfl
  | cons p rest ih =>
    show p.2 ++ allCards (rest ++ y) = (p.2 ++ allCards rest) ++ allCards y
    rw [ih, List.append_assoc]

/-- A successful key split decomposes the map around its first binding of
the key. -/
theorem splitAtKey_some {k : String} :
    ∀ {m b : CardsMap} {v : List Card} {a : CardsMap},
      splitAtKey m k = some (b, v, a) → m = b ++ (k, v) :: a ∧ mapGet m k = some v := by
  intro m
  induction m with
  | nil => intro b v a h; exact absurd h (by simp [splitAtKey])
  | cons p rest ih =>
    obtain ⟨k', v'⟩ := p
    intro b v a h
    rw [splitAtKey] at h
    by_cases hk : k' = k
    · rw [if_pos hk] at h
      injection h with h
      rw [Prod.mk.injEq] at h
      obtain ⟨hb, hva⟩ := h
      rw [Prod.mk.injEq] at hva
      obtain ⟨hv, ha⟩ := hva
      subst hb hv ha hk
      exact ⟨by simp, by rw [mapGet, if_pos rfl]⟩
    · rw [if_neg hk] at h
      rw [Option.map_eq_some'] at h
      obtain ⟨bva, hbva, hg⟩ := h
      obtain ⟨hrest, hget⟩ := ih (b := bva.1) (v := bva.2.1) (a := bva.2.2) (by rw [hbva])
      rw [Prod.mk.injEq] at hg
      obtain ⟨hb, hva⟩ := hg
      rw [Prod.mk.injEq] at hva
      obtain ⟨hv, ha⟩ := hva
      subst hb hv ha
      constructor
      · rw [List.cons_append, ← hrest]
      · rw [mapGet, if_neg hk]
        exact hget

/-- A failed key split means the key is absent. -/
theorem splitAtKey_none {k : String} :
    ∀ {m : CardsMap}, splitAtKey m k = none → mapGet m k = none := by
  intro m
  induction m with
  | nil => intro _; rfl
  | cons p rest ih =>
    obtain ⟨k', v'⟩ := p
    intro h
    rw [splitAtKey] at h
    by_cases hk : k' = k
    · rw [if_pos hk] at h
      exact absurd h (by simp)
    · rw [if_neg hk] at h
      rw [mapGet, if_neg hk]
      exact ih (by simpa using h)

/-- A terminating aliased extend leaves the exact candidates in front and
appends precisely the accepted cards of the whole pool: had anything at or
before the aliased list been accepted, the live scan could not have
finished. -/
theorem extendAliased_ok {p : Card → Except Unit Bool} {fuel : Nat}
    {b : CardsMap} {L0 : List Card} {a : CardsMap} {E : List Card}
    (h : extendAliased p fuel b L0 a = some (.ok E)) :
    E = L0 ++ (allCards b ++ L0 ++ allCards a).filter (passB p) := by
  rw [extendAliased] at h
  split at h
  · exact absurd h (by simp)
  · rename_i a0 h0
    split at h
    · exact absurd h (by simp)
    · exact absurd h (by simp)
    · rename_i l2 h1
      split at h
      · exact absurd h (by simp)
      · rename_i a2 h2
        injection h with h
        injection h with h
        · obtain ⟨hl2, hfail⟩ := scanLive_ok h1
          have hfail' : ∀ c ∈ L0 ++ a0, passB p c = false := by
            intro c hc
            obtain ⟨j, hget⟩ := List.get_of_mem hc
            obtain ⟨jv, hjv⟩ := j
            have hj := hfail jv hjv (Nat.zero_le _)
            rw [hget] at hj
            simp [passB, hj]
          have hfilter_b := scanStatic_ok_filter h0
          have ha0 : a0 = [] := by
            cases hx : a0 with
            | nil => rfl
            | cons x xs =>
              have hmem : x ∈ a0 := by rw [hx]; exact List.mem_cons_self _ _
              have htrue : passB p x = true := by
                have hxf : x ∈ (allCards b).filter (passB p) := by
                  rw [← hfilter_b]; exact hmem
                exact (List.mem_filter.1 hxf).2
              have hfalse : passB p x = false :=
                hfail' x (List.mem_append_right _ hmem)
              rw [htrue] at hfalse
              exact absurd hfalse (by simp)
          have hL0 : L0.filter (passB p) = [] := by
            refine List.filter_eq_nil_iff.2 ?_
            intro c hc
            simp [hfail' c (List.mem_append_left _ hc)]
          have hb : (allCards b).filter (passB p) = [] := by
            rw [← hfilter_b, ha0]
          have ha2 : a2 = (allCards a).filter (passB p) := scanStatic_ok_filter h2
          subst ha0
          rw [List.append_nil] at hl2
          subst hl2
          rw [← h, ha2, List.filter_append, List.filter_append, hb, hL0]
          simp

/-- An expanded name resolution never takes the early empty return. -/
theorem nameResolve_expand_not_early {m : CardsMap} {n : String} {d : Bool} {fuel : Nat} :
    nameResolve m (some n) true true d fuel ≠ some .earlyEmpty := by
  intro hcon
  rw [nameResolve] at hcon
  simp only [if_true, Bool.not_true, Bool.and_false] at hcon
  split at hcon
  · rename_i hfalse
    exact absurd hfalse (by simp)
  · split at hcon
    · rename_i bva hsp
      split at hcon <;> simp at hcon
    · rename_i hsp
      split at hcon <;> simp at hcon

/-- A successful expanded name resolution returns the exact candidates
followed by the accepted cards of the whole indexed pool, in pool
order. -/
theorem nameResolve_expand_ok {m : CardsMap} {n : String} {d : Bool} {fuel : Nat}
    {es : List Card} {m' : CardsMap}
    (h : nameResolve m (some n) true true d fuel = some (.entries es m')) :
    es = (mapGet m (make_dbentry n)).getD []
          ++ (allCards m).filter (passB (passFn d (expandFilter n))) := by
  rw [nameResolve] at h
  simp only [if_true, Bool.not_true, Bool.and_false] at h
  split at h
  · rename_i hfalse
    exact absurd hfalse (by simp)
  · split at h
    · rename_i bva hsp
      obtain ⟨hm, hget⟩ := splitAtKey_some (m := m) (k := make_dbentry n)
        (b := bva.1) (v := bva.2.1) (a := bva.2.2) (by rw [hsp])
      split at h
      · simp at h
      · simp at h
      · rename_i lfin hext
        injection h with h
        injection h with h1 h2
        rw [← h1, extendAliased_ok hext, hget, Option.getD_some]
        have hall : allCards m
            = allCards bva.1 ++ bva.2.1 ++ allCards bva.2.2 := by
          rw [hm, allCards_append]
          show allCards bva.1 ++ (bva.2.1 ++ allCards bva.2.2)
              = allCards bva.1 ++ bva.2.1 ++ allCards bva.2.2
          rw [List.append_assoc]
        rw [hall]
    · rename_i hsp
      split at h
      · simp at h
      · rename_i ms hsc
        injection h with h
        injection h with h1 h2
        rw [← h1, scanStatic_ok_filter hsc, splitAtKey_none hsp]
        simp

/-- With no expansion requested, the doubles flag is dead. -/
theorem nameResolve_noexpand_doubles (m : CardsMap) (cn : Option String)
    (ic d : Bool) (fuel : Nat) :
    nameResolve m cn ic false d fuel = nameResolve m cn ic false false fuel := by
  rw [nameResolve.eq_def, nameResolve.eq_def]
  cases ic with
  | false => rfl
  | true =>
    cases cn with
    | none => rfl
    | some n => simp

/-- Inversion of a lookup call that returned a card sequence, when at
least one criterion holds: the result is the post filter applied to the
resolved candidates, or the early empty return. -/
theorem lookupFuel_cards_inv {s : ScryfallDB} {cn : Option String} {e d u : Bool}
    {sc st : Option String} {fuel : Nat} {r : List Card} {s' : ScryfallDB}
    (hv : setTypeInvalid st = false)
    (hcrit : (isCardCrit cn || sc.isSome || st.isSome) = true)
    (h : lookupFuel s cn e d u sc st fuel = some (.ok (.cards r) s')) :
    (∃ es m', nameResolve s.cards_map cn (isCardCrit cn) e d fuel = some (.entries es m')
      ∧ r = postFilter s.expansion_codename_map sc st u es
      ∧ s' = ⟨m', s.expansion_codename_map⟩)
    ∨ (nameResolve s.cards_map cn (isCardCrit cn) e d fuel = some .earlyEmpty
      ∧ r = [] ∧ s' = s) := by
  rw [lookupFuel] at h
  rw [hv] at h
  simp only [Bool.false_eq_true, if_false, hcrit, Bool.not_true] at h
  split at h
  · simp at h
  · simp at h
  · rename_i hres
    injection h with h
    injection h with h1 h2
    injection h1 with h1
    exact Or.inr ⟨hres, h1.symm, h2.symm⟩
  · rename_i es m' hres
    injection h with h
    injection h with h1 h2
    injection h1 with h1
    exact Or.inl ⟨es, m', hres, h1.symm, h2.symm⟩

/-- A lookup that returned cards was not given an invalid set type. -/
theorem lookupFuel_cards_valid {s : ScryfallDB} {cn : Option String} {e d u : Bool}
    {sc st : Option String} {fuel : Nat} {r : List Card} {s' : ScryfallDB}
    (h : lookupFuel s cn e d u sc st fuel = some (.ok (.cards r) s')) :
    setTypeInvalid st = false := by
  by_cases hv : setTypeInvalid st = true
  · rw [lookupFuel, if_pos hv] at h
    simp at h
  · simpa using hv

/-- The set-type stage keeps a subsequence. -/
theorem setTypeStage_sublist (st : Option String) (es : List Card) :
    List.Sublist (setTypeStage st es) es := by
  cases st with
  | none => exact List.Sublist.refl es
  | some t => exact List.filter_sublist es

/-- The final stages keep a subsequence. -/
theorem finalStages_sublist (st : Option String) (u : Bool) (es : List Card) :
    List.Sublist (finalStages st u es) es := by
  rw [finalStages]
  cases u with
  | false => exact setTypeStage_sublist st es
  | true =>
    simp only [if_true]
    refine List.Sublist.trans ?_ (setTypeStage_sublist st es)
    rw [uniqueStage_eq_firstSeen]
    exact firstSeen_sublist (setTypeStage st es) []

/-- The post filter keeps a subsequence of the candidates. -/
theorem postFilter_sublist (cm : CodeMap) (sc st : Option String) (u : Bool)
    (es : List Card) : List.Sublist (postFilter cm sc st u es) es := by
  rw [postFilter.eq_def]
  cases sc with
  | none => exact finalStages_sublist st u es
  | some c =>
    by_cases hie : (es.filter (setCodePred cm c)).isEmpty = true
    · simp only [hie, if_true]
      exact List.nil_sublist es
    · simp only [hie, Bool.false_eq_true, if_false]
      exact List.Sublist.trans
        (finalStages_sublist st u (es.filter (setCodePred cm c)))
        (List.filter_sublist es)

/-- With no set code, no set type and no uniqueness, the post filter is
the identity. -/
theorem postFilter_defaults (cm : CodeMap) (es : List Card) :
    postFilter cm none none false es = es := rfl

/-- Wherever the code's matcher yields a value, that value is exactly the
specification's wildcard-shape matcher. -/
theorem expandFilter_claimShape {n : String} {c : Card} {b : Bool}
    (h : expandFilter n c = .ok b) : b = claimShape n c := by
  rw [expandFilter.eq_def] at h
  rw [claimShape]
  by_cases h1 : (pyStartsWith n "*" && pyEndsWith n "*") = true
  · rw [if_pos h1] at h
    rw [if_pos h1]
    injection h with h
    exact h.symm
  · rw [if_neg h1] at h
    rw [if_neg h1]
    by_cases h2 : (pyStartsWith n "*") = true
    · rw [if_pos h2] at h
      rw [if_pos h2]
      injection h with h
      exact h.symm
    · rw [if_neg h2] at h
      rw [if_neg h2]
      by_cases h3 : (pyEndsWith n "*") = true
      · rw [if_pos h3] at h
        rw [if_pos h3]
        injection h with h
        exact h.symm
      · rw [if_neg h3] at h
        rw [if_neg h3]
        rw [isin] at h
        cases hw : pyWords (pyLower n) with
        | nil => rw [hw] at h; exact absurd h (by simp)
        | cons w ws =>
          rw [hw] at h
          injection h with h
          rw [← h]

/-- A card accepted by the doubles-restricted pool predicate is a
double-faced card. -/
theorem passB_passFn_true_doubles {f : Card → Except Unit Bool} {c : Card}
    (h : passB (passFn true f) c = true) : hasDoubleSep c.name = true := by
  by_cases hd : hasDoubleSep c.name = true
  · exact hd
  · rw [Bool.not_eq_true] at hd
    rw [passB, passFn] at h
    simp [hd] at h

/-- C4: in an expanded search, the returned sequence is an in-order
subsequence of the exact-match candidates followed by the accepted cards
of the indexed pool in insertion order (equal to it when no further
filter applies), and the code's matcher agrees with the wildcard shapes
exactly as the specification words them. -/
theorem expanded_search_shape (s : ScryfallDB) (n : String) (d u : Bool)
    (sc st : Option String) (fuel : Nat) (r : List Card) (s' : ScryfallDB)
    (hn : isCardCrit (some n) = true)
    (h : lookupFuel s (some n) true d u sc st fuel = some (.ok (.cards r) s')) :
    List.Sublist r ((mapGet s.cards_map (make_dbentry n)).getD []
        ++ (allCards s.cards_map).filter (passB (passFn d (expandFilter n)))) ∧
    (sc = none → st = none → u = false →
      r = (mapGet s.cards_map (make_dbentry n)).getD []
        ++ (allCards s.cards_map).filter (passB (passFn d (expandFilter n)))) ∧
    (∀ c b, expandFilter n c = .ok b → b = claimShape n c) := by
  have hv : setTypeInvalid st = false := lookupFuel_cards_valid h
  have hcrit : (isCardCrit (some n) || sc.isSome || st.isSome) = true := by
    simp [hn]
  rcases lookupFuel_cards_inv hv hcrit h with
    ⟨es, m', hres, hr, hs⟩ | ⟨hres, hr, hs⟩
  · rw [hn] at hres
    have hes := nameResolve_expand_ok hres
    subst hes
    refine ⟨?_, ?_, ?_⟩
    · rw [hr]
      exact postFilter_sublist _ sc st u _
    · rintro rfl rfl rfl
      rw [hr, postFilter_defaults]
    · intro c b hcb
      exact expandFilter_claimShape hcb
  · rw [hn] at hres
    exact absurd hres nameResolve_expand_not_early

/-- Witness for C4 at a concrete suffix-wildcard search with no exact
matches. -/
theorem expanded_search_shape_witness :
    List.Sublist [cardFireIce] ((mapGet dbFireIce.cards_map (make_dbentry "*Ice")).getD []
        ++ (allCards dbFireIce.cards_map).filter
            (passB (passFn false (expandFilter "*Ice")))) ∧
    ((none : Option String) = none → (none : Option String) = none → false = false →
      [cardFireIce] = (mapGet dbFireIce.cards_map (make_dbentry "*Ice")).getD []
        ++ (allCards dbFireIce.cards_map).filter
            (passB (passFn false (expandFilter "*Ice")))) ∧
    (∀ c b, expandFilter "*Ice" c = .ok b → b = claimShape "*Ice" c) :=
  expanded_search_shape dbFireIce "*Ice" false false none none 10
    [cardFireIce] dbFireIce (by decide) (by decide)

/-- C5: when a set code is supplied and lookup returns a card sequence,
the set-code filter is exact equality for a known code and a
case-sensitive prefix match for an unknown one; an empty filter result
short-circuits to the empty sequence, and with no further filter the
result is exactly the filtered candidate sequence. -/
theorem set_code_filter (s : ScryfallDB) (n : Option String) (e d u : Bool)
    (sc : String) (st : Option String) (fuel : Nat) (r : List Card) (s' : ScryfallDB)
    (h : lookupFuel s n e d u (some sc) st fuel = some (.ok (.cards r) s')) :
    (∀ c, setCodePred s.expansion_codename_map sc c
        = (if codeMapContains s.expansion_codename_map sc then c.set_code == sc
           else pyStartsWith c.set_code sc)) ∧
    (∀ es m', nameResolve s.cards_map n (isCardCrit n) e d fuel = some (.entries es m') →
      ((es.filter (setCodePred s.expansion_codename_map sc)).isEmpty = true → r = []) ∧
      (st = none → u = false →
        r = es.filter (setCodePred s.expansion_codename_map sc))) := by
  have hv : setTypeInvalid st = false := lookupFuel_cards_valid h
  have hcrit : (isCardCrit n || (some sc).isSome || st.isSome) = true := by simp
  refine ⟨fun c => rfl, ?_⟩
  intro es m' hres
  rcases lookupFuel_cards_inv hv hcrit h with
    ⟨es0, m0, hres0, hr, hs⟩ | ⟨hres0, hr, hs⟩
  · rw [hres0] at hres
    injection hres with hres
    injection hres with he hm
    rw [he] at hr
    rw [postFilter] at hr
    constructor
    · intro hie
      rw [hr]
      simp only [hie, if_true]
    · rintro rfl rfl
      rw [hr]
      by_cases hie : (es.filter (setCodePred s.expansion_codename_map sc)).isEmpty = true
      · simp only [hie, if_true]
        rw [List.isEmpty_iff] at hie
        rw [hie]
      · simp only [hie, Bool.false_eq_true, if_false]
        rfl
  · rw [hres0] at hres
    exact absurd hres (by simp)

/-- Witness for C5 at a concrete unknown prefix code. -/
theorem set_code_filter_witness :
    (∀ c, setCodePred dbAlias.expansion_codename_map "s" c
        = (if codeMapContains dbAlias.expansion_codename_map "s" then c.set_code == "s"
           else pyStartsWith c.set_code "s")) ∧
    (∀ es m', nameResolve dbAlias.cards_map (some "Alpha-Beta")
          (isCardCrit (some "Alpha-Beta")) false false 1 = some (.entries es m') →
      ((es.filter (setCodePred dbAlias.expansion_codename_map "s")).isEmpty = true
          → [cardHyphen] = []) ∧
      ((none : Option String) = none → false = false →
        [cardHyphen] = es.filter (setCodePred dbAlias.expansion_codename_map "s"))) :=
  set_code_filter dbAlias (some "Alpha-Beta") false false false "s" none 1
    [cardHyphen] dbAlias (by decide)

/-- C9 as amended: the doubles restriction is dead when expand_search is
off (the outcome does not depend on it at all), and in an expanded search
it confines the appended pool matches to double-faced names, while the
exact-match candidates pass unfiltered. -/
theorem doubles_only_scope :
    (∀ (s : ScryfallDB) (cn : Option String) (d u : Bool) (sc st : Option String)
        (fuel : Nat),
      lookupFuel s cn false d u sc st fuel = lookupFuel s cn false false u sc st fuel) ∧
    (∀ (s : ScryfallDB) (n : String) (u : Bool) (sc st : Option String) (fuel : Nat)
        (r : List Card) (s' : ScryfallDB),
      isCardCrit (some n) = true →
      lookupFuel s (some n) true true u sc st fuel = some (.ok (.cards r) s') →
      ∀ c ∈ r, c ∈ (mapGet s.cards_map (make_dbentry n)).getD []
        ∨ hasDoubleSep c.name = true) := by
  constructor
  · intro s cn d u sc st fuel
    simp only [lookupFuel]
    rw [nameResolve_noexpand_doubles]
  · intro s n u sc st fuel r s' hn h
    have hv : setTypeInvalid st = false := lookupFuel_cards_valid h
    have hcrit : (isCardCrit (some n) || sc.isSome || st.isSome) = true := by simp [hn]
    rcases lookupFuel_cards_inv hv hcrit h with
      ⟨es, m', hres, hr, hs⟩ | ⟨hres, hr, hs⟩
    · rw [hn] at hres
      have hes := nameResolve_expand_ok hres
      intro c hc
      have hces : c ∈ es := (postFilter_sublist _ sc st u es).mem (hr ▸ hc)
      rw [hes] at hces
      rcases List.mem_append.1 hces with hex | hexp
      · exact Or.inl hex
      · exact Or.inr (passB_passFn_true_doubles (List.mem_filter.1 hexp).2)
    · rw [hn] at hres
      exact absurd hres nameResolve_expand_not_early

/-- Witness for C9: the dead-flag half at a concrete index, and the
doubles restriction on the concrete expanded lookup of "Fire". -/
theorem doubles_only_scope_witness :
    lookupFuel dbFire (some "Fire") false true false none none 1
      = lookupFuel dbFire (some "Fire") false false false none none 1 ∧
    (∀ c ∈ [cardFire, cardFireIce],
      c ∈ (mapGet dbFireIce.cards_map (make_dbentry "Fire")).getD []
        ∨ hasDoubleSep c.name = true) :=
  ⟨doubles_only_scope.1 dbFire (some "Fire") true false none none 1,
   doubles_only_scope.2 dbFireIce "Fire" false none none 10 [cardFire, cardFireIce]
     ⟨[("fire", [cardFire, cardFireIce]), ("fire-//-ice", [cardFireIce])],
      [("s1", "Set One"), ("s2", "Set Two")]⟩
     (by decide) (by decide)⟩

/-! ## Lemmas about the index build -/

/-- The Python platform test accepts exactly the one-element list
consisting of "mtgo". -/
theorem isOnlineOnly_iff (gs : List String) : isOnlineOnly gs = true ↔ gs = ["mtgo"] := by
  cases gs with
  | nil => simp [isOnlineOnly]
  | cons g rest =>
    cases rest with
    | nil => simp [isOnlineOnly]
    | cons g2 r2 => simp [isOnlineOnly]

/-- A skipped entry leaves the build untouched. -/
theorem load_skip (e : RawEntry) (l : List RawEntry) (m : CardsMap)
    (h : e.lang ≠ "en" ∨ e.games = ["mtgo"]) :
    load_cards_from_db (e :: l) m = load_cards_from_db l m := by
  rw [load_cards_from_db]
  rcases h with h | h
  · rw [if_pos h]
  · by_cases hl : e.lang ≠ "en"
    · rw [if_pos hl]
    · rw [if_neg hl, if_pos ((isOnlineOnly_iff e.games).2 h)]

/-- Loading a concatenation loads the second part into the result of the
first. -/
theorem load_append (l1 l2 : List RawEntry) (m : CardsMap) :
    load_cards_from_db (l1 ++ l2) m
      = load_cards_from_db l2 (load_cards_from_db l1 m) := by
  induction l1 generalizing m with
  | nil => rfl
  | cons e rest ih =>
    rw [List.cons_append, load_cards_from_db, load_cards_from_db]
    by_cases h1 : e.lang ≠ "en"
    · rw [if_pos h1, if_pos h1, ih]
    · rw [if_neg h1, if_neg h1]
      by_cases h2 : isOnlineOnly e.games = true
      · rw [if_pos h2, if_pos h2, ih]
      · rw [if_neg h2, if_neg h2, ih]

/-- An appended card is found under its key. -/
theorem mapGet_mapAppend_self : ∀ (m : CardsMap) (k : String) (c : Card),
    c ∈ (mapGet (mapAppend m k c) k).getD []
  | [], k, c => by simp [mapAppend, mapGet]
  | (k', v) :: rest, k, c => by
    rw [mapAppend]
    by_cases hk : k' = k
    · rw [if_pos hk, mapGet, if_pos hk]
      simp
    · rw [if_neg hk, mapGet, if_neg hk]
      exact mapGet_mapAppend_self rest k c

/-- Appending to the map never loses a card already reachable. -/
theorem mapGet_mapAppend_mono : ∀ (m : CardsMap) (k k2 : String) (x c : Card),
    x ∈ (mapGet m k).getD [] → x ∈ (mapGet (mapAppend m k2 c) k).getD []
  | [], k, k2, x, c, hx => by simp [mapGet] at hx
  | (k', v) :: rest, k, k2, x, c, hx => by
    rw [mapAppend]
    by_cases hk2 : k' = k2
    · rw [if_pos hk2]
      by_cases hk : k' = k
      · rw [mapGet, if_pos hk]
        rw [mapGet, if_pos hk] at hx
        exact List.mem_append_left _ hx
      · rw [mapGet, if_neg hk]
        rw [mapGet, if_neg hk] at hx
        exact hx
    · rw [if_neg hk2]
      by_cases hk : k' = k
      · rw [mapGet, if_pos hk] at hx ⊢
        exact hx
      · rw [mapGet, if_neg hk] at hx ⊢
        exact mapGet_mapAppend_mono rest k k2 x c hx

/-- Loading further entries never loses a card already reachable. -/
theorem load_mono : ∀ (l : List RawEntry) (m : CardsMap) (k : String) (x : Card),
    x ∈ (mapGet m k).getD [] → x ∈ (mapGet (load_cards_from_db l m) k).getD []
  | [], _, _, _, hx => hx
  | e :: rest, m, k, x, hx => by
    rw [load_cards_from_db]
    by_cases h1 : e.lang ≠ "en"
    · rw [if_pos h1]
      exact load_mono rest m k x hx
    · rw [if_neg h1]
      by_cases h2 : isOnlineOnly e.games = true
      · rw [if_pos h2]
        exact load_mono rest m k x hx
      · rw [if_neg h2]
        exact load_mono rest _ k x (mapGet_mapAppend_mono m k _ x _ hx)

/-- A default-argument lookup returns exactly the indexed list of the
normalized name, leaving the state untouched. -/
theorem lookup_default_exact (s : ScryfallDB) (n : String) (fuel : Nat)
    (hn : isCardCrit (some n) = true) :
    lookupFuel s (some n) false false false none none fuel
      = some (.ok (.cards ((mapGet s.cards_map (make_dbentry n)).getD [])) s) := by
  have hnr : nameResolve s.cards_map (some n) true false false fuel
      = if ((mapGet s.cards_map (make_dbentry n)).getD []).isEmpty then some .earlyEmpty
        else some (.entries ((mapGet s.cards_map (make_dbentry n)).getD []) s.cards_map) := by
    rw [nameResolve]
    simp
  rw [lookupFuel]
  simp only [setTypeInvalid, hn, Option.isSome_none, Bool.or_false, Bool.true_or,
    Bool.not_true, Bool.false_eq_true, if_false, hnr]
  by_cases hie : ((mapGet s.cards_map (make_dbentry n)).getD []).isEmpty = true
  · rw [if_pos hie]
    rw [List.isEmpty_iff] at hie
    rw [hie]
  · rw [if_neg hie]
    rfl

/-- C3 as amended: entries whose language is not "en" or whose platform
list is exactly the one-element list ["mtgo"] contribute nothing to the
build; an English entry with any other platform list and a name that is
non-empty after removing asterisks is retained, and a default lookup of
its name contains its card. -/
theorem build_filter_spec (l1 l2 : List RawEntry) (e : RawEntry) (m0 : CardsMap) :
    ((e.lang ≠ "en" ∨ e.games = ["mtgo"]) →
      load_cards_from_db (l1 ++ e :: l2) m0 = load_cards_from_db (l1 ++ l2) m0) ∧
    (e.lang = "en" → e.games ≠ ["mtgo"] → (stripStars e.name).length ≠ 0 →
      toCard e ∈ (mapGet (load_cards_from_db (l1 ++ e :: l2) m0)
          (make_dbentry e.name)).getD [] ∧
      ∀ fuel, ∃ r,
        lookupFuel (mkScryfallDB (l1 ++ e :: l2)) (some e.name)
            false false false none none fuel
          = some (.ok (.cards r) (mkScryfallDB (l1 ++ e :: l2)))
        ∧ toCard e ∈ r) := by
  constructor
  · intro h
    rw [load_append, load_append, load_skip e l2 _ h]
  · intro he hg hname
    have hmem : toCard e ∈ (mapGet (load_cards_from_db (l1 ++ e :: l2) m0)
        (make_dbentry e.name)).getD [] := by
      rw [load_append, load_cards_from_db,
        if_neg (fun hne => hne he),
        if_neg (fun h2 => hg ((isOnlineOnly_iff e.games).1 h2))]
      exact load_mono l2 _ _ _ (mapGet_mapAppend_self _ _ _)
    have hmem0 : toCard e ∈ (mapGet (load_cards_from_db (l1 ++ e :: l2) [])
        (make_dbentry e.name)).getD [] := by
      rw [load_append, load_cards_from_db,
        if_neg (fun hne => hne he),
        if_neg (fun h2 => hg ((isOnlineOnly_iff e.games).1 h2))]
      exact load_mono l2 _ _ _ (mapGet_mapAppend_self _ _ _)
    refine ⟨hmem, ?_⟩
    intro fuel
    have hn : isCardCrit (some e.name) = true := by
      simp [isCardCrit, hname]
    refine ⟨(mapGet (mkScryfallDB (l1 ++ e :: l2)).cards_map
        (make_dbentry e.name)).getD [], ?_, ?_⟩
    · exact lookup_default_exact (mkScryfallDB (l1 ++ e :: l2)) e.name fuel hn
    · exact hmem0

/-- Witness for C3: a French entry is dropped, and a retained English
entry is reachable under its key. -/
theorem build_filter_spec_witness :
    load_cards_from_db ([] ++ (⟨"Foo", "fr", "x", "X", "promo", []⟩ : RawEntry) :: []) []
      = load_cards_from_db ([] ++ []) [] ∧
    toCard (⟨"Bar", "en", "x", "X", "promo", []⟩ : RawEntry)
      ∈ (mapGet (load_cards_from_db
            ([] ++ (⟨"Bar", "en", "x", "X", "promo", []⟩ : RawEntry) :: []) [])
          (make_dbentry (RawEntry.mk "Bar" "en" "x" "X" "promo" []).name)).getD [] :=
  ⟨(build_filter_spec [] [] ⟨"Foo", "fr", "x", "X", "promo", []⟩ []).1 (Or.inl (by decide)),
   ((build_filter_spec [] [] ⟨"Bar", "en", "x", "X", "promo", []⟩ []).2
      rfl (by decide) (by decide)).1⟩

end MTG
